import Mathlib

/-!
Verification of the migration-graph analytics of the reddit_analysis frontend.

The definitions below are a shallow embedding of the JavaScript data-utility
functions of the frontend (`loadMigrationData`, `filterByMinFlow`, `findPath`,
`calculateCentrality` and friends, plus `calculateCommunityStats` from
`src/frontend/src/utils/calculations.js`).  Node and link records are Lean
structures; JS `Map`/`Set` state is passed explicitly; JS numbers holding
counts are `Int`/`Nat` and values produced by division are `ℚ`.
The BFS while-loop is embedded with an explicit iteration budget (`fuel`);
the budget chosen in `findPath` provably dominates the loop's termination
measure, so the fuel-exhausted branch is unreachable (this is a consequence
of the completeness theorems proved below).
-/

/-- A directed migration link between two communities, as in the JSON graph:
`source`/`target` community ids, migration volume `value`, and the optional
`avg_time_gap` statistic (absent field modelled by `none`). -/
structure Link where
  source : String
  target : String
  value : Int
  avg_time_gap : Option ℚ
deriving DecidableEq

/-- A community node record of the JSON graph. -/
structure Node where
  id : String
  name : String
  category : String
  size : Int
deriving DecidableEq

/-- The graph object: arrays of node and link records. -/
structure Graph where
  nodes : List Node
  links : List Link
deriving DecidableEq

/-- The default value a JS string read yields in our embedding; it is never
actually consulted because BFS queue entries are nonempty. -/
def emptyId : String := ""

/-- JS (`findPath`, adjacency construction): the `Map` built from the links
maps each id `x` to the targets of all links whose source is `x`, in link
order; a missing key reads as `[]`. -/
def adjacency (links : List Link) (x : String) : List String :=
  (links.filter (fun l => l.source == x)).map Link.target

/-- JS (`findPath`, inner neighbor loop): scan the neighbor list in order;
each neighbor not yet in `visited` is added to `visited` and the extended
path is pushed.  Returns the pushed queue entries (in push order) together
with the updated visited set. -/
def enqueue (path : List String) : List String → List String → List (List String) × List String
  | [], visited => ([], visited)
  | n :: rest, visited =>
    if n ∈ visited then enqueue path rest visited
    else
      let r := enqueue path rest (n :: visited)
      ((path ++ [n]) :: r.1, r.2)

/-- JS (`findPath`, BFS while-loop): dequeue the front path, return it when
its endpoint is the target, otherwise enqueue the unvisited neighbors and
continue; an empty queue yields `[]`.  `fuel` bounds the number of
iterations; `findPath` supplies a bound that provably always suffices. -/
def bfs (adj : String → List String) (targetId : String) :
    Nat → List (List String) → List String → List String
  | _, [], _ => []
  | 0, _ :: _, _ => []
  | fuel + 1, path :: rest, visited =>
    let current := path.getLastD emptyId
    if current = targetId then path
    else
      let r := enqueue path (adj current) visited
      bfs adj targetId fuel (rest ++ r.1) r.2

/-- Iteration budget for the BFS loop: each iteration either shrinks the
queue or visits a fresh link target, so `2 * #links + 1` iterations always
reach the end of the loop. -/
def bfsFuel (links : List Link) : Nat :=
  2 * links.length + 1

/-- JS `findPath(graph, sourceId, targetId)`: BFS over the directed links,
starting from the queue `[[sourceId]]` with `sourceId` visited. -/
def findPath (g : Graph) (sourceId targetId : String) : List String :=
  bfs (adjacency g.links) targetId (bfsFuel g.links) [[sourceId]] [sourceId]

/-- The elements strictly between the endpoints of a path: the JS loop
`for (let i = 1; i < path.length - 1; i++)`. -/
def pathInterior (p : List String) : List String :=
  (p.drop 1).dropLast

/-- JS `calculateCentrality`, accumulation phase: for every ordered pair of
node records with distinct ids, the pathInterior nodes of the BFS shortest path
each get one increment; `centralityCount g v` is the total accumulated for
id `v`. -/
def centralityCount (g : Graph) (v : String) : Nat :=
  (g.nodes.map (fun src =>
    (g.nodes.map (fun tgt =>
      if src.id ≠ tgt.id then (pathInterior (findPath g src.id tgt.id)).count v else 0)).sum)).sum

/-- JS `calculateCentrality`, normalizer `(numNodes - 1) * (numNodes - 2) / 2`
(JS numbers; the subtraction can go negative, hence the `Int`-like cast). -/
def normalizer (n : Nat) : ℚ :=
  ((n : ℚ) - 1) * ((n : ℚ) - 2) / 2

/-- JS `calculateCentrality(graph)`: the accumulated count of `v`, divided by
the normalizer when that is positive and left undivided otherwise.  The JS
object has one key per node record id; this embedding is the total function
of which the claims consult only node ids. -/
def calculateCentrality (g : Graph) (v : String) : ℚ :=
  if 0 < normalizer g.nodes.length
  then (centralityCount g v : ℚ) / normalizer g.nodes.length
  else (centralityCount g v : ℚ)

/-- Raw graph object as found in the fetched JSON: the `nodes` and `links`
fields may be absent. -/
structure RawGraph where
  nodes : Option (List Node)
  links : Option (List Link)
deriving DecidableEq

/-- Raw interchange document as fetched: `graph` may be absent; the other
fields are carried opaquely. -/
structure RawDoc where
  graph : Option RawGraph
  metadata : List (String × String)
  bridge_communities : List String
  summary_stats : List (String × Int)
deriving DecidableEq

/-- The empty interchange document `loadMigrationData` builds in its catch
block: `{ graph: { nodes: [], links: [] }, metadata: {},
bridge_communities: [], summary_stats: {} }`. -/
def emptyRawDoc : RawDoc :=
  { graph := some { nodes := some [], links := some [] }
    metadata := []
    bridge_communities := []
    summary_stats := [] }

/-- Possible outcomes of the `fetch`/`response.json()` phase of
`loadMigrationData`: the network request throws, the response is not ok,
the JSON body fails to parse, or a document is obtained. -/
inductive FetchOutcome where
  | fetchFailure
  | httpError
  | parseError
  | ok (data : RawDoc)
deriving DecidableEq

/-- JS `loadMigrationData()`: on a successful fetch the document is
validated (`data.graph`, `data.graph.nodes`, `data.graph.links` must all be
present) and returned as is; every thrown error is caught and the empty
interchange document is returned as an ordinary value. -/
def loadMigrationData : FetchOutcome → RawDoc
  | FetchOutcome.ok d =>
    match d.graph with
    | some gr =>
      match gr.nodes, gr.links with
      | some _, some _ => d
      | _, _ => emptyRawDoc
    | none => emptyRawDoc
  | _ => emptyRawDoc

/-- The data object handled by the filter helpers: a (possibly absent)
graph plus the other fields carried along by the object spread. -/
structure DataDoc where
  graph : Option Graph
  metadata : List (String × String)
  bridge_communities : List String
  summary_stats : List (String × Int)
deriving DecidableEq

/-- JS `filterByMinFlow(data, minFlow)`: null data, a missing graph or a
non-positive threshold return the input unchanged; otherwise links below
the threshold are dropped and only nodes incident to a surviving link are
kept. -/
def filterByMinFlow (data : Option DataDoc) (minFlow : Int) : Option DataDoc :=
  match data with
  | none => none
  | some d =>
    match d.graph with
    | none => some d
    | some g =>
      if minFlow ≤ 0 then some d
      else
        let filteredLinks := g.links.filter (fun l => minFlow ≤ l.value)
        let connected := filteredLinks.map Link.source ++ filteredLinks.map Link.target
        let filteredNodes := g.nodes.filter (fun nd => nd.id ∈ connected)
        some { d with graph := some { nodes := filteredNodes, links := filteredLinks } }

/-- JS `Math.round(x * 10) / 10` (round half up, to one decimal place). -/
def roundTenth (x : ℚ) : ℚ :=
  (⌊x * 10 + 1 / 2⌋ : ℚ) / 10

/-- The JS comparator `(a, b) => b.value - a.value`: `a` may stay before `b`
exactly when `a.value ≥ b.value`; `Array.prototype.sort` is stable. -/
def linkDesc (a b : Link) : Bool :=
  decide (b.value ≤ a.value)

/-- One direction's statistics block inside the record built by
`calculateCommunityStats`. -/
structure FlowStats where
  count : Nat
  total : Int
  avgTime : ℚ
  top : List Link
deriving DecidableEq

/-- The record returned by `calculateCommunityStats`. -/
structure CommunityStats where
  incoming : FlowStats
  outgoing : FlowStats
  netFlow : Int
deriving DecidableEq

/-- JS helper inside `calculateCommunityStats`: count, summed value,
rounded average `avg_time_gap` (0 when the list is empty) and the five
largest links by value. -/
def flowStats (ls : List Link) : FlowStats :=
  { count := ls.length
    total := (ls.map Link.value).sum
    avgTime :=
      roundTenth (if 0 < ls.length
        then (ls.map (fun l => l.avg_time_gap.getD 0)).sum / (ls.length : ℚ)
        else 0)
    top := (ls.mergeSort linkDesc).take 5 }

/-- JS `calculateCommunityStats(graph, communityId)`: null graph or falsy
(empty) community id yield null; otherwise incoming and outgoing statistics
and the net flow. -/
def calculateCommunityStats (graph : Option Graph) (communityId : String) :
    Option CommunityStats :=
  match graph with
  | none => none
  | some g =>
    if communityId = emptyId then none
    else
      let incomingLinks := g.links.filter (fun l => l.target == communityId)
      let outgoingLinks := g.links.filter (fun l => l.source == communityId)
      some
        { incoming := flowStats incomingLinks
          outgoing := flowStats outgoingLinks
          netFlow := (incomingLinks.map Link.value).sum - (outgoingLinks.map Link.value).sum }

/-- Execution of `findPath` with the graph state threaded explicitly: the
source only ever reads the graph (it builds a fresh adjacency map, queue and
visited set), so the embedding returns the graph unchanged next to the
computed path. -/
def findPathRun (g : Graph) (s t : String) : Graph × List String :=
  (g, findPath g s t)

/-- Execution of `calculateCentrality` with the graph state threaded
explicitly, as for `findPathRun`. -/
def calculateCentralityRun (g : Graph) : Graph × (String → ℚ) :=
  (g, calculateCentrality g)

/-- One directed step of the graph: a link of `g` traversed from its stated
source to its stated target. -/
def LinkStep (g : Graph) (a b : String) : Prop :=
  ∃ l ∈ g.links, l.source = a ∧ l.target = b

/-- A directed path of `g` from `s` to `t`: a nonempty id sequence starting
at `s`, ending at `t`, each consecutive pair a link of `g` in its stated
direction. -/
def IsDirectedPath (g : Graph) (s t : String) (p : List String) : Prop :=
  p.head? = some s ∧ p.getLast? = some t ∧ List.Chain' (LinkStep g) p

/-! ## Concrete fixtures used by counterexamples and witnesses -/

/-- Community id used by concrete scenarios. -/
def idA : String := "A"

/-- Community id used by concrete scenarios. -/
def idB : String := "B"

/-- Community id used by concrete scenarios. -/
def idC : String := "C"

/-- A link record with the given endpoints, volume 1. -/
def sampleLink (s t : String) : Link :=
  { source := s, target := t, value := 1, avg_time_gap := none }

/-- A node record with the given id. -/
def sampleNode (i : String) : Node :=
  { id := i, name := i, category := i, size := 1 }

/-- The spec's scenario graph: chain A→B→C, no direct A→C link. -/
def gChain : Graph :=
  { nodes := [sampleNode idA, sampleNode idB, sampleNode idC]
    links := [sampleLink idA idB, sampleLink idB idC] }

/-- Three nodes with the bidirectional chain A↔B↔C: both BFS paths between
A and C pass through B. -/
def gCycle : Graph :=
  { nodes := [sampleNode idA, sampleNode idB, sampleNode idC]
    links := [sampleLink idA idB, sampleLink idB idA,
              sampleLink idB idC, sampleLink idC idB] }

/-- Two nodes joined by one link. -/
def gSingleLink : Graph :=
  { nodes := [sampleNode idA, sampleNode idB], links := [sampleLink idA idB] }

/-- Two nodes with no links: B is unreachable from A. -/
def gIsolated : Graph :=
  { nodes := [sampleNode idA, sampleNode idB], links := [] }

/-- Graph for the flow filter: A→B of volume 5, B→C of volume 1, and C ends
up isolated at threshold 2. -/
def gFlow : Graph :=
  { nodes := [sampleNode idA, sampleNode idB, sampleNode idC]
    links := [{ source := idA, target := idB, value := 5, avg_time_gap := none },
              { source := idB, target := idC, value := 1, avg_time_gap := none }] }

/-- A data document wrapping `gFlow`. -/
def sampleDoc : DataDoc :=
  { graph := some gFlow, metadata := [], bridge_communities := [], summary_stats := [] }

/-! ## Support lemmas for the BFS embedding -/

/-- Endpoints of the queued paths, exactly as the loop reads them. -/
def queueEnds (queue : List (List String)) : List String :=
  queue.map (fun p => p.getLastD emptyId)

theorem getLastD_append_single (l : List String) (a : String) :
    (l ++ [a]).getLastD emptyId = a := by
  rw [List.getLastD_eq_getLast?, List.getLast?_concat]
  rfl

theorem getLast?_of_ne_nil {l : List String} (h : l ≠ []) :
    l.getLast? = some (l.getLastD emptyId) := by
  have hs : l.getLast?.isSome := List.getLast?_isSome.mpr h
  obtain ⟨x, hx⟩ := Option.isSome_iff_exists.mp hs
  rw [hx, List.getLastD_eq_getLast?, hx]
  rfl

theorem chain'_getElem {α : Type} {R : α → α → Prop} {c : List α} (h : List.Chain' R c)
    {i : ℕ} {a b : α} (ha : getElem? c i = some a) (hb : getElem? c (i + 1) = some b) :
    R a b := by
  obtain ⟨hi, ha'⟩ := List.getElem?_eq_some_iff.mp ha
  obtain ⟨hj, hb'⟩ := List.getElem?_eq_some_iff.mp hb
  have hlt : i < c.length - 1 := by omega
  have hr := List.chain'_iff_get.mp h i hlt
  simpa [List.get_eq_getElem, ha', hb'] using hr

theorem enqueue_visited_mono (path ns : List String) :
    ∀ (visited : List String), ∀ v ∈ visited, v ∈ (enqueue path ns visited).2 := by
  induction ns with
  | nil => intro visited v hv; simpa [enqueue] using hv
  | cons n rest ih =>
    intro visited v hv
    by_cases hn : n ∈ visited
    · simpa [enqueue, hn] using ih visited v hv
    · have hv' : v ∈ n :: visited := List.mem_cons_of_mem _ hv
      simpa [enqueue, hn] using ih (n :: visited) v hv'

theorem enqueue_mem_queue (path ns : List String) :
    ∀ (visited : List String), ∀ q ∈ (enqueue path ns visited).1,
      ∃ v, q = path ++ [v] ∧ v ∈ ns ∧ v ∉ visited ∧ v ∈ (enqueue path ns visited).2 := by
  induction ns with
  | nil => intro visited q hq; simp [enqueue] at hq
  | cons n rest ih =>
    intro visited q hq
    by_cases hn : n ∈ visited
    · simp only [enqueue, if_pos hn] at hq ⊢
      obtain ⟨v, h1, h2, h3, h4⟩ := ih visited q hq
      exact ⟨v, h1, List.mem_cons_of_mem _ h2, h3, h4⟩
    · simp only [enqueue, if_neg hn] at hq ⊢
      rcases List.mem_cons.mp hq with hq | hq
      · refine ⟨n, hq, List.mem_cons_self _ _, hn, ?_⟩
        exact enqueue_visited_mono path rest (n :: visited) n (List.mem_cons_self _ _)
      · obtain ⟨v, h1, h2, h3, h4⟩ := ih (n :: visited) q hq
        have h3' : v ∉ visited := fun hc => h3 (List.mem_cons_of_mem _ hc)
        exact ⟨v, h1, List.mem_cons_of_mem _ h2, h3', h4⟩

theorem enqueue_mem_visited (path ns : List String) :
    ∀ (visited : List String) (w : String),
      w ∈ (enqueue path ns visited).2 ↔ w ∈ visited ∨ (path ++ [w]) ∈ (enqueue path ns visited).1 := by
  induction ns with
  | nil => intro visited w; simp [enqueue]
  | cons n rest ih =>
    intro visited w
    by_cases hn : n ∈ visited
    · simp only [enqueue, if_pos hn]
      exact ih visited w
    · simp only [enqueue, if_neg hn, List.mem_cons]
      rw [ih (n :: visited) w]
      constructor
      · rintro (h | h)
        · rcases List.mem_cons.mp h with h | h
          · subst h; right; left; rfl
          · left; exact h
        · right; right; exact h
      · rintro (h | h | h)
        · left; exact List.mem_cons_of_mem _ h
        · have : w = n := by
            have := List.append_inj_right h (by rfl)
            simpa using this
          subst this; left; exact List.mem_cons_self _ _
        · right; exact h

theorem enqueue_nbr_visited (path ns : List String) :
    ∀ (visited : List String), ∀ v ∈ ns, v ∈ (enqueue path ns visited).2 := by
  induction ns with
  | nil => intro visited v hv; simp at hv
  | cons n rest ih =>
    intro visited v hv
    by_cases hn : n ∈ visited
    · simp only [enqueue, if_pos hn]
      rcases List.mem_cons.mp hv with h | h
      · subst h; exact enqueue_visited_mono path rest visited v hn
      · exact ih visited v h
    · simp only [enqueue, if_neg hn]
      rcases List.mem_cons.mp hv with h | h
      · subst h
        exact enqueue_visited_mono path rest (v :: visited) v (List.mem_cons_self _ _)
      · exact ih (n :: visited) v h

theorem enqueue_ends (path ns : List String) :
    ∀ (visited : List String),
      (queueEnds (enqueue path ns visited).1).Nodup ∧
      ∀ e ∈ queueEnds (enqueue path ns visited).1, e ∉ visited := by
  induction ns with
  | nil => intro visited; simp [enqueue, queueEnds]
  | cons n rest ih =>
    intro visited
    by_cases hn : n ∈ visited
    · simpa only [enqueue, if_pos hn] using ih visited
    · simp only [enqueue, if_neg hn]
      obtain ⟨ihn, ihv⟩ := ih (n :: visited)
      have hends : queueEnds ((path ++ [n]) :: (enqueue path rest (n :: visited)).1)
          = n :: queueEnds (enqueue path rest (n :: visited)).1 := by
        simp [queueEnds, getLastD_append_single]
      rw [hends]
      constructor
      · refine List.nodup_cons.mpr ⟨?_, ihn⟩
        intro hc
        exact ihv n hc (List.mem_cons_self _ _)
      · intro e he
        rcases List.mem_cons.mp he with h | h
        · subst h; exact hn
        · exact fun hc => ihv e h (List.mem_cons_of_mem _ hc)

theorem filter_not_mem_cons_length (U visited : List String) (n : String)
    (hU : n ∈ U) (hn : n ∉ visited) :
    (U.filter (fun u => decide (u ∉ n :: visited))).length + 1
      ≤ (U.filter (fun u => decide (u ∉ visited))).length := by
  have h1 : U.filter (fun u => decide (u ∉ n :: visited))
      = (U.filter (fun u => decide (u ∉ visited))).filter (fun u => decide (u ≠ n)) := by
    rw [List.filter_filter]
    apply List.filter_congr
    intro x _
    by_cases h2 : x = n <;> by_cases h3 : x ∈ visited <;> simp [h2, h3]
  have hmem : n ∈ U.filter (fun u => decide (u ∉ visited)) :=
    List.mem_filter.mpr ⟨hU, by simpa using hn⟩
  have hlt : ((U.filter (fun u => decide (u ∉ visited))).filter
      (fun u => decide (u ≠ n))).length < (U.filter (fun u => decide (u ∉ visited))).length :=
    List.length_filter_lt_length_iff_exists.mpr ⟨n, hmem, by simp⟩
  rw [h1]
  omega

theorem enqueue_count (path ns : List String) :
    ∀ (visited U : List String), (∀ v ∈ ns, v ∈ U) →
      (U.filter (fun u => decide (u ∉ (enqueue path ns visited).2))).length
          + (enqueue path ns visited).1.length
        ≤ (U.filter (fun u => decide (u ∉ visited))).length := by
  induction ns with
  | nil => intro visited U _; simp [enqueue]
  | cons n rest ih =>
    intro visited U hns
    have hrest : ∀ v ∈ rest, v ∈ U := fun v hv => hns v (List.mem_cons_of_mem _ hv)
    by_cases hn : n ∈ visited
    · simpa only [enqueue, if_pos hn] using ih visited U hrest
    · simp only [enqueue, if_neg hn, List.length_cons]
      have hih := ih (n :: visited) U hrest
      have hstep := filter_not_mem_cons_length U visited n (hns n (List.mem_cons_self _ _)) hn
      omega

theorem queueEnds_cons (p : List String) (l : List (List String)) :
    queueEnds (p :: l) = p.getLastD emptyId :: queueEnds l := rfl

theorem queueEnds_append (l₁ l₂ : List (List String)) :
    queueEnds (l₁ ++ l₂) = queueEnds l₁ ++ queueEnds l₂ :=
  List.map_append _ _ _

theorem mem_queueEnds {queue : List (List String)} {e : String} :
    e ∈ queueEnds queue ↔ ∃ q ∈ queue, q.getLastD emptyId = e := by
  simp [queueEnds]

/-- The loop invariant of the BFS in `findPath`, for start `s` and target
`t`: every queued path is a duplicate-free adjacency chain from `s` made of
visited ids; queued lengths are nondecreasing and within one of each other;
every chain from `s` to `t` is certified by a queued path at least as short
as one of its prefixes (`cert`); a visited id that is no queued endpoint has
had all its neighbors visited; `t`, once visited, stays a queued endpoint
until returned; queued endpoints are distinct and visited. -/
structure BfsInv (adj : String → List String) (s t : String)
    (queue : List (List String)) (visited : List String) : Prop where
  chains : ∀ p ∈ queue, p.head? = some s ∧ List.Chain' (fun a b => b ∈ adj a) p
  nodups : ∀ p ∈ queue, p.Nodup
  inVisited : ∀ p ∈ queue, ∀ x ∈ p, x ∈ visited
  sortedLens : List.Sorted (· ≤ ·) (queue.map List.length)
  band : ∀ p ∈ queue, ∀ q ∈ queue, p.length ≤ q.length + 1
  cert : ∀ c : List String, c.head? = some s → c.getLast? = some t →
    List.Chain' (fun a b => b ∈ adj a) c →
    ∃ p ∈ queue, ∃ i : ℕ, i < c.length ∧ getElem? c i = p.getLast? ∧ p.length ≤ i + 1
  processed : ∀ v ∈ visited, v ∉ queueEnds queue → ∀ w ∈ adj v, w ∈ visited
  targetEnd : t ∈ visited → t ∈ queueEnds queue
  endsNodup : (queueEnds queue).Nodup
  endsVisited : ∀ e ∈ queueEnds queue, e ∈ visited

/-- One dequeue-and-expand iteration of the BFS loop preserves the loop
invariant, provided the dequeued endpoint is not the target. -/
theorem bfsInv_step {adj : String → List String} {s t : String}
    {path : List String} {rest : List (List String)} {visited : List String}
    (inv : BfsInv adj s t (path :: rest) visited)
    (hnt : path.getLastD emptyId ≠ t) :
    BfsInv adj s t (rest ++ (enqueue path (adj (path.getLastD emptyId)) visited).1)
      (enqueue path (adj (path.getLastD emptyId)) visited).2 := by
  set current := path.getLastD emptyId with hcur
  set NQ := (enqueue path (adj current) visited).1 with hNQdef
  set NV := (enqueue path (adj current) visited).2 with hNVdef
  have hpathmem : path ∈ path :: rest := List.mem_cons_self _ _
  obtain ⟨hhead, hchain⟩ := inv.chains path hpathmem
  have hpathne : path ≠ [] := by
    intro h
    rw [h] at hhead
    simp at hhead
  have hlastpath : path.getLast? = some current := getLast?_of_ne_nil hpathne
  have hQ := enqueue_mem_queue path (adj current) visited
  have hV := enqueue_mem_visited path (adj current) visited
  have hmono := enqueue_visited_mono path (adj current) visited
  have hnbr := enqueue_nbr_visited path (adj current) visited
  have hendsE := enqueue_ends path (adj current) visited
  have hfront : ∀ q ∈ rest, path.length ≤ q.length := by
    have hs := inv.sortedLens
    rw [List.map_cons] at hs
    intro q hq
    exact (List.sorted_cons.mp hs).1 _ (List.mem_map_of_mem _ hq)
  have hNQlen : ∀ q ∈ NQ, q.length = path.length + 1 := by
    intro q hq
    obtain ⟨v, rfl, -, -, -⟩ := hQ q hq
    simp
  have hub : ∀ q ∈ rest ++ NQ, q.length ≤ path.length + 1 := by
    intro q hq
    rcases List.mem_append.mp hq with hq | hq
    · exact inv.band q (List.mem_cons_of_mem _ hq) path hpathmem
    · exact le_of_eq (hNQlen q hq)
  have hlb : ∀ q ∈ rest ++ NQ, path.length ≤ q.length := by
    intro q hq
    rcases List.mem_append.mp hq with hq | hq
    · exact hfront q hq
    · rw [hNQlen q hq]; omega
  have hqnenil : ∀ q ∈ rest ++ NQ, q ≠ [] := by
    intro q hq
    rcases List.mem_append.mp hq with hq | hq
    · obtain ⟨hh, -⟩ := inv.chains q (List.mem_cons_of_mem _ hq)
      intro h; rw [h] at hh; simp at hh
    · obtain ⟨v, rfl, -, -, -⟩ := hQ q hq
      simp
  have hendsrest : ∀ e ∈ queueEnds rest, e ∈ queueEnds (rest ++ NQ) := by
    intro e he
    rw [queueEnds_append]
    exact List.mem_append_left _ he
  have hendsNQ : ∀ e ∈ queueEnds NQ, e ∈ queueEnds (rest ++ NQ) := by
    intro e he
    rw [queueEnds_append]
    exact List.mem_append_right _ he
  have hNQend : ∀ v, (path ++ [v]) ∈ NQ → v ∈ queueEnds NQ := by
    intro v hv
    exact mem_queueEnds.mpr ⟨path ++ [v], hv, getLastD_append_single _ _⟩
  have hprocessed : ∀ v ∈ NV, v ∉ queueEnds (rest ++ NQ) → ∀ w ∈ adj v, w ∈ NV := by
    intro v hvNV hvends w hw
    rcases (hV v).mp hvNV with hv | hv
    · by_cases hvc : v = current
      · subst hvc
        exact hnbr w hw
      · have hvrest : v ∉ queueEnds rest := fun hc => hvends (hendsrest v hc)
        have hvold : v ∉ queueEnds (path :: rest) := by
          rw [queueEnds_cons]
          intro hc
          rcases List.mem_cons.mp hc with hc | hc
          · exact hvc hc
          · exact hvrest hc
        exact hmono w (inv.processed v hv hvold w hw)
    · exact absurd (hendsNQ v (hNQend v hv)) hvends
  have htargetEnd : t ∈ NV → t ∈ queueEnds (rest ++ NQ) := by
    intro ht
    rcases (hV t).mp ht with ht | ht
    · have := inv.targetEnd ht
      rw [queueEnds_cons] at this
      rcases List.mem_cons.mp this with hc | hc
      · exact absurd hc.symm hnt
      · exact hendsrest t hc
    · exact hendsNQ t (hNQend t ht)
  refine ⟨?_, ?_, ?_, ?_, ?_, ?_, hprocessed, htargetEnd, ?_, ?_⟩
  · -- chains
    intro q hq
    rcases List.mem_append.mp hq with hq | hq
    · exact inv.chains q (List.mem_cons_of_mem _ hq)
    · obtain ⟨v, rfl, hv, hnv, hvNV⟩ := hQ q hq
      constructor
      · rw [List.head?_append, hhead]; rfl
      · refine List.chain'_append.mpr ⟨hchain, List.chain'_singleton _, ?_⟩
        intro x hx y hy
        rw [hlastpath] at hx
        rw [List.head?_cons] at hy
        have hx' : x = current := by simpa [eq_comm] using hx
        have hy' : y = v := by simpa [eq_comm] using hy
        rw [hx', hy']
        exact hv
  · -- nodups
    intro q hq
    rcases List.mem_append.mp hq with hq | hq
    · exact inv.nodups q (List.mem_cons_of_mem _ hq)
    · obtain ⟨v, rfl, hv, hnv, hvNV⟩ := hQ q hq
      refine List.nodup_append.mpr ⟨inv.nodups path hpathmem, List.nodup_singleton _, ?_⟩
      intro x hx hx'
      rw [List.mem_singleton] at hx'
      subst hx'
      exact hnv (inv.inVisited path hpathmem x hx)
  · -- inVisited
    intro q hq x hx
    rcases List.mem_append.mp hq with hq | hq
    · exact hmono x (inv.inVisited q (List.mem_cons_of_mem _ hq) x hx)
    · obtain ⟨v, rfl, hv, hnv, hvNV⟩ := hQ q hq
      rcases List.mem_append.mp hx with hx | hx
      · exact hmono x (inv.inVisited path hpathmem x hx)
      · rw [List.mem_singleton] at hx
        subst hx
        exact hvNV
  · -- sortedLens
    rw [List.map_append]
    show List.Pairwise (· ≤ ·) _
    refine List.pairwise_append.mpr ⟨?_, ?_, ?_⟩
    · have hs := inv.sortedLens
      rw [List.map_cons] at hs
      exact hs.of_cons
    · refine List.pairwise_of_forall_mem_list ?_
      intro a ha b hb
      obtain ⟨qa, hqa, rfl⟩ := List.mem_map.mp ha
      obtain ⟨qb, hqb, rfl⟩ := List.mem_map.mp hb
      rw [hNQlen qa hqa, hNQlen qb hqb]
    · intro a ha b hb
      obtain ⟨qa, hqa, rfl⟩ := List.mem_map.mp ha
      obtain ⟨qb, hqb, rfl⟩ := List.mem_map.mp hb
      rw [hNQlen qb hqb]
      exact inv.band qa (List.mem_cons_of_mem _ hqa) path hpathmem
  · -- band
    intro p hp q hq
    have h1 := hub p hp
    have h2 := hlb q hq
    omega
  · -- cert
    intro c hchead hclast hcchain
    obtain ⟨p, hp, i, hi, hci, hpi⟩ := inv.cert c hchead hclast hcchain
    rcases List.mem_cons.mp hp with rfl | hp
    · -- the certificate was the dequeued path
      have hci' : getElem? c i = some current := by rw [hci, hlastpath]
      have hilt : i < c.length - 1 := by
        rcases Nat.lt_or_ge i (c.length - 1) with h | h
        · exact h
        · exfalso
          have hieq : i = c.length - 1 := by omega
          rw [List.getLast?_eq_getElem?] at hclast
          rw [hieq, hclast] at hci'
          exact hnt (Option.some.inj hci').symm
      obtain ⟨w, hw⟩ : ∃ w, getElem? c (i + 1) = some w :=
        ⟨_, List.getElem?_eq_getElem (by omega)⟩
      have hwadj : w ∈ adj current := chain'_getElem hcchain hci' hw
      have hwNV : w ∈ NV := hnbr w hwadj
      have walk : ∀ d j, c.length - j ≤ d → i + 1 ≤ j → j < c.length →
          (∀ u, getElem? c j = some u → u ∈ NV) →
          ∃ j', i + 1 ≤ j' ∧ j' < c.length ∧
            ∃ q ∈ rest ++ NQ, getElem? c j' = q.getLast? := by
        intro d
        induction d with
        | zero => intro j h1 h2 h3 _; omega
        | succ d ihd =>
          intro j h1 h2 h3 hu
          obtain ⟨u, hju⟩ : ∃ u, getElem? c j = some u :=
            ⟨_, List.getElem?_eq_getElem h3⟩
          have huNV : u ∈ NV := hu u hju
          by_cases hue : u ∈ queueEnds (rest ++ NQ)
          · obtain ⟨q, hq, hqu⟩ := mem_queueEnds.mp hue
            have hql : q.getLast? = some u := by
              rw [getLast?_of_ne_nil (hqnenil q hq), hqu]
            exact ⟨j, h2, h3, q, hq, by rw [hju, hql]⟩
          · by_cases hjend : j = c.length - 1
            · exfalso
              have hjt : getElem? c j = some t := by
                rw [List.getLast?_eq_getElem?] at hclast
                rw [hjend, hclast]
              have hut : u = t := by
                rw [hju] at hjt
                exact Option.some.inj hjt
              subst hut
              exact hue (htargetEnd huNV)
            · have hj1 : j + 1 < c.length := by omega
              obtain ⟨u', hju'⟩ : ∃ u', getElem? c (j + 1) = some u' :=
                ⟨_, List.getElem?_eq_getElem hj1⟩
              have hadj : u' ∈ adj u := chain'_getElem hcchain hju hju'
              have hu'NV : u' ∈ NV := hprocessed u huNV hue u' hadj
              refine ihd (j + 1) (by omega) (by omega) hj1 ?_
              intro x hx
              rw [hju'] at hx
              rw [← Option.some.inj hx]
              exact hu'NV
      obtain ⟨j', hj1, hj2, q, hq, hcq⟩ :=
        walk (c.length - (i + 1)) (i + 1) le_rfl le_rfl (by omega)
          (fun u hu => by
            rw [hw] at hu
            rw [← Option.some.inj hu]
            exact hwNV)
      refine ⟨q, hq, j', hj2, hcq, ?_⟩
      have hb1 := hub q hq
      omega
    · exact ⟨p, List.mem_append_left _ hp, i, hi, hci, hpi⟩
  · -- endsNodup
    rw [queueEnds_append]
    refine List.nodup_append.mpr ⟨?_, hendsE.1, ?_⟩
    · have := inv.endsNodup
      rw [queueEnds_cons] at this
      exact this.of_cons
    · intro e he he'
      have hev : e ∈ visited := by
        have := inv.endsVisited e
        rw [queueEnds_cons] at this
        exact this (List.mem_cons_of_mem _ he)
      exact hendsE.2 e he' hev
  · -- endsVisited
    intro e he
    rw [queueEnds_append] at he
    rcases List.mem_append.mp he with he | he
    · have hev : e ∈ visited := by
        have := inv.endsVisited e
        rw [queueEnds_cons] at this
        exact this (List.mem_cons_of_mem _ he)
      exact hmono e hev
    · obtain ⟨q, hq, hqu⟩ := mem_queueEnds.mp he
      obtain ⟨v, rfl, hv, hnv, hvNV⟩ := hQ q hq
      rw [getLastD_append_single] at hqu
      rw [← hqu]
      exact hvNV

/-- Master theorem for the BFS loop: under the invariant and with fuel at
least the termination measure, an empty result means no adjacency chain
joins `s` to `t`, and a nonempty result is a duplicate-free chain from `s`
to `t` of minimal length. -/
theorem bfs_spec {adj : String → List String} {s t : String} (U : List String)
    (hadj : ∀ x : String, ∀ y ∈ adj x, y ∈ U) :
    ∀ (fuel : ℕ) (queue : List (List String)) (visited : List String),
      BfsInv adj s t queue visited →
      2 * (U.filter (fun u => decide (u ∉ visited))).length + queue.length ≤ fuel →
      ((bfs adj t fuel queue visited = [] →
          ∀ c : List String, c.head? = some s → c.getLast? = some t →
            ¬ List.Chain' (fun a b => b ∈ adj a) c)
      ∧ (bfs adj t fuel queue visited ≠ [] →
          (bfs adj t fuel queue visited).head? = some s ∧
          (bfs adj t fuel queue visited).getLast? = some t ∧
          List.Chain' (fun a b => b ∈ adj a) (bfs adj t fuel queue visited) ∧
          (bfs adj t fuel queue visited).Nodup ∧
          ∀ c : List String, c.head? = some s → c.getLast? = some t →
            List.Chain' (fun a b => b ∈ adj a) c →
            (bfs adj t fuel queue visited).length ≤ c.length)) := by
  intro fuel
  induction fuel with
  | zero =>
    intro queue visited inv hm
    cases queue with
    | nil =>
      constructor
      · intro _ c hh hl hc
        obtain ⟨p, hp, -⟩ := inv.cert c hh hl hc
        simp at hp
      · intro hne
        simp [bfs] at hne
    | cons q qs =>
      exfalso
      simp only [List.length_cons] at hm
      omega
  | succ fuel ih =>
    intro queue visited inv hm
    cases queue with
    | nil =>
      constructor
      · intro _ c hh hl hc
        obtain ⟨p, hp, -⟩ := inv.cert c hh hl hc
        simp at hp
      · intro hne
        simp [bfs] at hne
    | cons path rest =>
      obtain ⟨hhead, hchain⟩ := inv.chains path (List.mem_cons_self _ _)
      have hpathne : path ≠ [] := by
        intro h
        rw [h] at hhead
        simp at hhead
      have hlastpath : path.getLast? = some (path.getLastD emptyId) :=
        getLast?_of_ne_nil hpathne
      by_cases hct : path.getLastD emptyId = t
      · -- the dequeued path reaches the target: the loop returns it
        have hres : bfs adj t (fuel + 1) (path :: rest) visited = path := by
          simp only [bfs, if_pos hct]
        rw [hres]
        constructor
        · intro h
          exact absurd h hpathne
        · intro _
          refine ⟨hhead, by rw [hlastpath, hct], hchain,
            inv.nodups path (List.mem_cons_self _ _), ?_⟩
          intro c hh hl hc
          obtain ⟨p, hp, i, hi, hci, hpi⟩ := inv.cert c hh hl hc
          have hfront : path.length ≤ p.length := by
            have hs := inv.sortedLens
            rw [List.map_cons] at hs
            rcases List.mem_cons.mp hp with rfl | hp'
            · exact le_rfl
            · exact (List.sorted_cons.mp hs).1 _ (List.mem_map_of_mem _ hp')
          omega
      · -- expand the frontier and recurse
        have hres : bfs adj t (fuel + 1) (path :: rest) visited =
            bfs adj t fuel
              (rest ++ (enqueue path (adj (path.getLastD emptyId)) visited).1)
              (enqueue path (adj (path.getLastD emptyId)) visited).2 := by
          simp only [bfs, if_neg hct]
        have hinv' := bfsInv_step inv hct
        have hcnt := enqueue_count path (adj (path.getLastD emptyId)) visited U
          (hadj (path.getLastD emptyId))
        have hm' : 2 * (U.filter (fun u =>
              decide (u ∉ (enqueue path (adj (path.getLastD emptyId)) visited).2))).length
            + (rest ++ (enqueue path (adj (path.getLastD emptyId)) visited).1).length
            ≤ fuel := by
          rw [List.length_append]
          simp only [List.length_cons] at hm
          omega
        rw [hres]
        exact ih _ _ hinv' hm'

/-- The invariant holds for the initial queue `[[s]]` and visited set `[s]`
of `findPath`. -/
theorem bfsInv_init (adj : String → List String) (s t : String) :
    BfsInv adj s t [[s]] [s] := by
  refine ⟨?_, ?_, ?_, ?_, ?_, ?_, ?_, ?_, ?_, ?_⟩
  · intro p hp
    rw [List.mem_singleton] at hp
    subst hp
    exact ⟨rfl, List.chain'_singleton _⟩
  · intro p hp
    rw [List.mem_singleton] at hp
    subst hp
    exact List.nodup_singleton _
  · intro p hp x hx
    rw [List.mem_singleton] at hp
    subst hp
    exact hx
  · simp
  · intro p hp q hq
    rw [List.mem_singleton] at hp
    rw [List.mem_singleton] at hq
    subst hp; subst hq
    omega
  · intro c hh hl hc
    have hcne : c ≠ [] := by
      intro h
      rw [h] at hh
      simp at hh
    refine ⟨[s], List.mem_singleton_self _, 0, ?_, ?_, ?_⟩
    · exact List.length_pos.mpr hcne
    · rw [← List.head?_eq_getElem?, hh]
      rfl
    · simp
  · intro v hv hvend
    exfalso
    rw [List.mem_singleton] at hv
    subst hv
    exact hvend (by simp [queueEnds, emptyId])
  · intro ht
    rw [List.mem_singleton] at ht
    subst ht
    simp [queueEnds, emptyId]
  · simp [queueEnds]
  · intro e he
    simp only [queueEnds, List.map_cons, List.map_nil, List.getLastD] at he
    simpa using he

theorem mem_adjacency {links : List Link} {a b : String} :
    b ∈ adjacency links a ↔ ∃ l ∈ links, l.source = a ∧ l.target = b := by
  simp only [adjacency, List.mem_map, List.mem_filter, beq_iff_eq]
  constructor
  · rintro ⟨l, ⟨h1, h2⟩, h3⟩
    exact ⟨l, h1, h2, h3⟩
  · rintro ⟨l, h1, h2, h3⟩
    exact ⟨l, ⟨h1, h2⟩, h3⟩

theorem chain_linkStep_iff {g : Graph} {c : List String} :
    List.Chain' (LinkStep g) c ↔ List.Chain' (fun a b => b ∈ adjacency g.links a) c := by
  constructor
  · intro h
    exact h.imp (fun a b hb => mem_adjacency.mpr hb)
  · intro h
    exact h.imp (fun a b hb => mem_adjacency.mp hb)

/-- Full characterization of `findPath` used by the claim theorems: an empty
result means no directed path exists, a nonempty result is a duplicate-free
directed path from source to target of minimal length. -/
theorem findPath_spec (g : Graph) (s t : String) :
    (findPath g s t = [] → ¬ ∃ p, IsDirectedPath g s t p)
    ∧ (findPath g s t ≠ [] →
        IsDirectedPath g s t (findPath g s t) ∧ (findPath g s t).Nodup ∧
        ∀ c, IsDirectedPath g s t c → (findPath g s t).length ≤ c.length) := by
  have hadj : ∀ x : String, ∀ y ∈ adjacency g.links x, y ∈ g.links.map Link.target := by
    intro x y hy
    obtain ⟨l, hl, -, hlt⟩ := mem_adjacency.mp hy
    exact List.mem_map.mpr ⟨l, hl, hlt⟩
  have hm : 2 * ((g.links.map Link.target).filter
        (fun u => decide (u ∉ [s]))).length + [[s]].length ≤ bfsFuel g.links := by
    have h1 : ((g.links.map Link.target).filter
        (fun u => decide (u ∉ [s]))).length ≤ (g.links.map Link.target).length :=
      List.length_filter_le _ _
    rw [List.length_map] at h1
    simp only [List.length_cons, List.length_nil, bfsFuel]
    omega
  have hmain := bfs_spec (g.links.map Link.target) hadj (bfsFuel g.links) [[s]] [s]
    (bfsInv_init (adjacency g.links) s t) hm
  constructor
  · intro hempty ⟨p, hh, hl, hc⟩
    exact hmain.1 hempty p hh hl (chain_linkStep_iff.mp hc)
  · intro hne
    obtain ⟨h1, h2, h3, h4, h5⟩ := hmain.2 hne
    refine ⟨⟨h1, h2, chain_linkStep_iff.mpr h3⟩, h4, ?_⟩
    intro c hc
    exact h5 c hc.1 hc.2.1 (chain_linkStep_iff.mp hc.2.2)

/-! ## Counting and endpoint lemmas for the centrality bounds -/

theorem sum_map_le_countP {α : Type} (l : List α) (f : α → ℕ) (p : α → Bool) (c : ℕ)
    (h : ∀ x ∈ l, f x ≤ if p x then c else 0) :
    (l.map f).sum ≤ l.countP p * c := by
  induction l with
  | nil => simp
  | cons a tl ih =>
    simp only [List.map_cons, List.sum_cons, List.countP_cons]
    have ha := h a (List.mem_cons_self _ _)
    have htl := ih (fun x hx => h x (List.mem_cons_of_mem _ hx))
    by_cases hp : p a
    · rw [if_pos hp] at ha
      rw [if_pos hp]
      have hexp : (tl.countP p + 1) * c = tl.countP p * c + c := by ring
      omega
    · rw [if_neg hp] at ha
      rw [if_neg hp]
      simp only [Nat.add_zero]
      omega

theorem countP_add_one_le {α : Type} (l : List α) (x : α) (p : α → Bool)
    (hx : x ∈ l) (hpx : ¬ p x = true) : l.countP p + 1 ≤ l.length := by
  induction l with
  | nil => simp at hx
  | cons a tl ih =>
    rw [List.countP_cons, List.length_cons]
    rcases List.mem_cons.mp hx with rfl | hx'
    · rw [if_neg hpx]
      have := @List.countP_le_length _ p tl
      omega
    · have := ih hx'
      by_cases hpa : p a
      · rw [if_pos hpa]; omega
      · rw [if_neg hpa]; omega

theorem countP_add_two_le {α : Type} (l : List α) (x y : α) (p : α → Bool)
    (hx : x ∈ l) (hy : y ∈ l) (hxy : x ≠ y)
    (hpx : ¬ p x = true) (hpy : ¬ p y = true) :
    l.countP p + 2 ≤ l.length := by
  induction l with
  | nil => simp at hx
  | cons a tl ih =>
    rw [List.countP_cons, List.length_cons]
    rcases List.mem_cons.mp hx with rfl | hx'
    · have hytl : y ∈ tl := by
        rcases List.mem_cons.mp hy with h | h
        · exact absurd h.symm hxy
        · exact h
      have := countP_add_one_le tl y p hytl hpy
      rw [if_neg hpx]
      omega
    · rcases List.mem_cons.mp hy with rfl | hy'
      · have := countP_add_one_le tl x p hx' hpx
        rw [if_neg hpy]
        omega
      · have := ih hx' hy'
        by_cases hpa : p a
        · rw [if_pos hpa]; omega
        · rw [if_neg hpa]; omega

theorem two_of_three {α : Type} {l : List α} (h : l.length < 3) {a b c : α}
    (ha : a ∈ l) (hb : b ∈ l) (hc : c ∈ l) : a = b ∨ a = c ∨ b = c := by
  rcases l with - | ⟨x, - | ⟨y, - | ⟨z, l⟩⟩⟩
  · simp at ha
  · rw [List.mem_singleton] at ha hb
    left
    rw [ha, hb]
  · simp only [List.mem_cons, List.not_mem_nil, or_false] at ha hb hc
    rcases ha with rfl | rfl <;> rcases hb with hb | hb <;> rcases hc with hc | hc <;>
      simp [hb, hc]
  · exfalso
    simp only [List.length_cons] at h
    omega

theorem not_mem_pathInterior_head {p : List String} {s : String}
    (hnd : p.Nodup) (hh : p.head? = some s) : s ∉ pathInterior p := by
  cases p with
  | nil => simp [pathInterior]
  | cons a tl =>
    rw [List.head?_cons] at hh
    have has : a = s := Option.some.inj hh
    subst has
    have hnotin : a ∉ tl := (List.nodup_cons.mp hnd).1
    intro hc
    have hint : pathInterior (a :: tl) = tl.dropLast := rfl
    rw [hint] at hc
    exact hnotin ((List.dropLast_sublist tl).subset hc)

theorem not_mem_pathInterior_last {p : List String} {t : String}
    (hnd : p.Nodup) (hl : p.getLast? = some t) : t ∉ pathInterior p := by
  cases p with
  | nil => simp [pathInterior]
  | cons a tl =>
    cases tl with
    | nil => simp [pathInterior]
    | cons b tl' =>
      have hlne : (b :: tl') ≠ [] := List.cons_ne_nil _ _
      rw [List.getLast?_cons_cons] at hl
      have h2 := getLast?_of_ne_nil hlne
      rw [h2] at hl
      have ht : (b :: tl').getLastD emptyId = t := Option.some.inj hl
      have h3 : (b :: tl').dropLast ++ [(b :: tl').getLast hlne] = b :: tl' :=
        List.dropLast_append_getLast hlne
      have h4 : (b :: tl').Nodup := (List.nodup_cons.mp hnd).2
      have h5 : (b :: tl').getLast hlne ∉ (b :: tl').dropLast := by
        rw [← h3] at h4
        obtain ⟨-, -, hdisj⟩ := List.nodup_append.mp h4
        intro hcc
        exact hdisj hcc (List.mem_singleton_self _)
      have h6 : (b :: tl').getLast hlne = (b :: tl').getLastD emptyId := by
        have := @List.getLast?_eq_getLast _ (b :: tl') hlne
        rw [getLast?_of_ne_nil hlne] at this
        exact (Option.some.inj this).symm
      intro hc
      have hint : pathInterior (a :: b :: tl') = (b :: tl').dropLast := rfl
      rw [hint] at hc
      rw [← ht, ← h6] at hc
      exact h5 hc

theorem pathInterior_count_le_one (g : Graph) (a b v : String) :
    (pathInterior (findPath g a b)).count v ≤ 1 := by
  by_cases h : findPath g a b = []
  · rw [h]
    simp [pathInterior]
  · obtain ⟨-, hnd, -⟩ := (findPath_spec g a b).2 h
    have hsub : (pathInterior (findPath g a b)).Sublist (findPath g a b) :=
      (List.dropLast_sublist _).trans (List.drop_sublist 1 _)
    exact List.nodup_iff_count_le_one.mp (List.Pairwise.sublist hsub hnd) v

theorem pathInterior_count_endpoint (g : Graph) (a b v : String)
    (hv : v = a ∨ v = b) : (pathInterior (findPath g a b)).count v = 0 := by
  by_cases h : findPath g a b = []
  · rw [h]
    simp [pathInterior]
  · obtain ⟨⟨hh, hl, -⟩, hnd, -⟩ := (findPath_spec g a b).2 h
    refine List.count_eq_zero.mpr ?_
    rcases hv with rfl | rfl
    · exact not_mem_pathInterior_head hnd hh
    · exact not_mem_pathInterior_last hnd hl

/-- Accumulated centrality count of a node id is at most the number of
ordered pairs of other node records: per ordered pair the interior count of
`v` is at most one, and pairs having `v` as an endpoint contribute zero. -/
theorem centralityCount_le (g : Graph) (v : String) (hv : v ∈ g.nodes.map Node.id) :
    centralityCount g v ≤ (g.nodes.length - 1) * (g.nodes.length - 2) := by
  obtain ⟨nv, hnv, hnvid⟩ := List.mem_map.mp hv
  unfold centralityCount
  have houter : ∀ src ∈ g.nodes,
      (g.nodes.map (fun tgt =>
        if src.id ≠ tgt.id then (pathInterior (findPath g src.id tgt.id)).count v else 0)).sum
      ≤ if (fun a : Node => decide (a.id ≠ v)) src then g.nodes.length - 2 else 0 := by
    intro src hsrc
    by_cases hsv : src.id = v
    · rw [if_neg (by simp [hsv])]
      refine le_of_eq (List.sum_eq_zero ?_)
      intro x hx
      obtain ⟨tgt, htgt, rfl⟩ := List.mem_map.mp hx
      by_cases hd : src.id ≠ tgt.id
      · rw [if_pos hd]
        exact pathInterior_count_endpoint g src.id tgt.id v (Or.inl hsv.symm)
      · rw [if_neg hd]
    · rw [if_pos (by simp [hsv])]
      have hinner : (g.nodes.map (fun tgt =>
          if src.id ≠ tgt.id then (pathInterior (findPath g src.id tgt.id)).count v else 0)).sum
          ≤ g.nodes.countP (fun b => decide (b.id ≠ v) && decide (b.id ≠ src.id)) * 1 := by
        refine sum_map_le_countP g.nodes _ _ 1 ?_
        intro tgt _
        by_cases h1 : tgt.id = v
        · have hz : (if src.id ≠ tgt.id
              then (pathInterior (findPath g src.id tgt.id)).count v else 0) = 0 := by
            by_cases hd : src.id ≠ tgt.id
            · rw [if_pos hd]
              exact pathInterior_count_endpoint g src.id tgt.id v (Or.inr h1.symm)
            · rw [if_neg hd]
          rw [hz]
          exact Nat.zero_le _
        · by_cases h2 : tgt.id = src.id
          · have hz : ¬ (src.id ≠ tgt.id) := fun hne => hne h2.symm
            rw [if_neg hz]
            exact Nat.zero_le _
          · have hcond : (decide (tgt.id ≠ v) && decide (tgt.id ≠ src.id)) = true := by
              simp [h1, h2]
            rw [if_pos hcond]
            by_cases hd : src.id ≠ tgt.id
            · rw [if_pos hd]
              exact pathInterior_count_le_one g src.id tgt.id v
            · rw [if_neg hd]
              exact Nat.zero_le _
      have hcount : g.nodes.countP
          (fun b => decide (b.id ≠ v) && decide (b.id ≠ src.id)) + 2 ≤ g.nodes.length := by
        refine countP_add_two_le g.nodes nv src _ hnv hsrc ?_ ?_ ?_
        · intro h
          rw [h] at hnvid
          exact hsv hnvid
        · simp [hnvid]
        · simp
      omega
  have hbound := sum_map_le_countP g.nodes _ (fun a : Node => decide (a.id ≠ v))
    (g.nodes.length - 2) houter
  have hc1 : g.nodes.countP (fun a : Node => decide (a.id ≠ v)) + 1 ≤ g.nodes.length :=
    countP_add_one_le g.nodes nv _ hnv (by simp [hnvid])
  have hmul : g.nodes.countP (fun a : Node => decide (a.id ≠ v)) * (g.nodes.length - 2)
      ≤ (g.nodes.length - 1) * (g.nodes.length - 2) :=
    Nat.mul_le_mul_right _ (by omega)
  omega

/-! ## Claim theorems -/

theorem bfs_found (adj : String → List String) (tId : String) (f : ℕ)
    (path : List String) (rest : List (List String)) (visited : List String)
    (h : path.getLastD emptyId = tId) :
    bfs adj tId (f + 1) (path :: rest) visited = path := by
  simp only [bfs, if_pos h]

/-- C3: for every graph `g` and id `a`, `findPath g a a = [a]`; and whenever
no directed path from `a` to `b` exists in `g`, `findPath g a b` returns the
empty sequence (an ordinary value, not an error). -/
theorem c3_self_and_unreachable (g : Graph) (a b : String) :
    findPath g a a = [a] ∧
    ((¬ ∃ p, IsDirectedPath g a b p) → findPath g a b = []) := by
  constructor
  · show bfs (adjacency g.links) a (bfsFuel g.links) [[a]] [a] = [a]
    rw [bfsFuel]
    exact bfs_found _ _ _ _ _ _ rfl
  · intro h
    by_contra hne
    obtain ⟨hpath, -, -⟩ := (findPath_spec g a b).2 hne
    exact h ⟨findPath g a b, hpath⟩

/-- Witness for C3: on the two-node graph without links, `findPath` maps
(A, A) to `[A]` and the unreachable pair (A, B) to `[]`. -/
theorem c3_witness :
    findPath gIsolated idA idA = [idA] ∧ findPath gIsolated idA idB = [] := by
  have h := c3_self_and_unreachable gIsolated idA idB
  refine ⟨h.1, h.2 ?_⟩
  rintro ⟨p, hh, hl, hc⟩
  cases p with
  | nil => simp at hh
  | cons x tl =>
    cases tl with
    | nil =>
      rw [List.head?_cons] at hh
      have hx1 : x = idA := Option.some.inj hh
      have hx2 : x = idB := by
        have : ([x] : List String).getLast? = some x := rfl
        rw [this] at hl
        exact Option.some.inj hl
      rw [hx1] at hx2
      exact absurd hx2 (by decide)
    | cons y tl' =>
      obtain ⟨l, hl', -⟩ := (List.chain'_cons.mp hc).1
      simp [gIsolated] at hl'

/-- C4: for `s ≠ t`, a nonempty `findPath g s t` result starts at `s`, ends
at `t`, follows links only in their stated direction, and no directed path
from `s` to `t` in `g` has fewer hops. -/
theorem c4_sound_and_minimal (g : Graph) (s t : String) (_hst : s ≠ t)
    (p : List String) (hp : findPath g s t = p) (hne : p ≠ []) :
    p.head? = some s ∧ p.getLast? = some t ∧ List.Chain' (LinkStep g) p ∧
    ∀ c, IsDirectedPath g s t c → p.length ≤ c.length := by
  subst hp
  obtain ⟨⟨h1, h2, h3⟩, -, h5⟩ := (findPath_spec g s t).2 hne
  exact ⟨h1, h2, h3, h5⟩

/-- Witness for C4 at the chain graph and the pair (A, C). -/
theorem c4_witness :
    idA ≠ idC ∧ findPath gChain idA idC ≠ [] ∧
    ((findPath gChain idA idC).head? = some idA ∧
     (findPath gChain idA idC).getLast? = some idC ∧
     List.Chain' (LinkStep gChain) (findPath gChain idA idC) ∧
     ∀ c, IsDirectedPath gChain idA idC c →
       (findPath gChain idA idC).length ≤ c.length) :=
  ⟨by decide, by decide,
    c4_sound_and_minimal gChain idA idC (by decide) _ rfl (by decide)⟩

/-- C5: in the chain graph A→B→C without a direct A→C link, `findPath`
returns `[A, B, C]` for (A, C), and `calculateCentrality` gives B a strictly
positive score while A and C score 0. -/
theorem c5_chain_scenario :
    findPath gChain idA idC = [idA, idB, idC] ∧
    0 < calculateCentrality gChain idB ∧
    calculateCentrality gChain idA = 0 ∧
    calculateCentrality gChain idC = 0 := by
  have hnorm : normalizer gChain.nodes.length = 1 := by
    show normalizer 3 = 1
    norm_num [normalizer]
  have hB : centralityCount gChain idB = 1 := by decide
  have hA : centralityCount gChain idA = 0 := by decide
  have hC : centralityCount gChain idC = 0 := by decide
  refine ⟨by decide, ?_, ?_, ?_⟩
  · unfold calculateCentrality
    rw [hnorm, hB]
    norm_num
  · unfold calculateCentrality
    rw [hnorm, hA]
    norm_num
  · unfold calculateCentrality
    rw [hnorm, hC]
    norm_num

/-- C7: the analytics are deterministic; any two evaluations of `findPath`
on the same input are equal, and likewise for `calculateCentrality` (both
are functions of the graph alone, with no randomness). -/
theorem c7_deterministic (g : Graph) (s t : String) :
    (∀ p q : List String, p = findPath g s t → q = findPath g s t → p = q) ∧
    (∀ m₁ m₂ : String → ℚ,
      m₁ = calculateCentrality g → m₂ = calculateCentrality g → m₁ = m₂) := by
  constructor
  · intro p q hp hq
    rw [hp, hq]
  · intro m₁ m₂ h1 h2
    rw [h1, h2]

/-- Witness for C7 at the chain graph. -/
theorem c7_witness :
    findPath gChain idA idC = findPath gChain idA idC ∧
    calculateCentrality gChain = calculateCentrality gChain :=
  ⟨(c7_deterministic gChain idA idC).1 _ _ rfl rfl,
   (c7_deterministic gChain idA idC).2 _ _ rfl rfl⟩

/-- C8: running the analytics leaves the graph unchanged — the threaded
executions return the very same graph, nodes and links they were given,
computing only separate derived structures. -/
theorem c8_readonly (g : Graph) (s t : String) :
    (findPathRun g s t).1 = g ∧ (findPathRun g s t).1.nodes = g.nodes ∧
    (findPathRun g s t).1.links = g.links ∧
    (calculateCentralityRun g).1 = g ∧ (calculateCentralityRun g).1.nodes = g.nodes ∧
    (calculateCentralityRun g).1.links = g.links :=
  ⟨rfl, rfl, rfl, rfl, rfl, rfl⟩

/-- C1 fails as stated: in the three-node graph `gCycle` (A↔B↔C), node B has
accumulated count 2 over ordered pairs while the normalizer is
`(3-1)(3-2)/2 = 1`, so its score is 2 > 1. -/
theorem c1_counterexample :
    3 ≤ gCycle.nodes.length ∧ idB ∈ gCycle.nodes.map Node.id ∧
    1 < calculateCentrality gCycle idB := by
  refine ⟨by decide, by decide, ?_⟩
  have hnorm : normalizer gCycle.nodes.length = 1 := by
    show normalizer 3 = 1
    norm_num [normalizer]
  have hB : centralityCount gCycle idB = 2 := by decide
  unfold calculateCentrality
  rw [hnorm, hB]
  norm_num

/-- C1 amended: for every graph with n ≥ 3 nodes, each mapped node's score
lies in [0, 2]: the ordered-pair count of a node is at most (n-1)(n-2),
twice the normalizer (n-1)(n-2)/2, because the JS loop ranges over ordered
pairs while the normalizer divides by the number of unordered pairs. -/
theorem c1_scores_bounded (g : Graph) (v : String)
    (hn : 3 ≤ g.nodes.length) (hv : v ∈ g.nodes.map Node.id) :
    0 ≤ calculateCentrality g v ∧ calculateCentrality g v ≤ 2 := by
  have h1n : 1 ≤ g.nodes.length := by omega
  have h2n : 2 ≤ g.nodes.length := by omega
  have hnorm_eq : normalizer g.nodes.length
      = (((g.nodes.length - 1) * (g.nodes.length - 2) : ℕ) : ℚ) / 2 := by
    unfold normalizer
    push_cast [Nat.cast_sub h1n, Nat.cast_sub h2n]
    ring
  have hMpos : (0:ℚ) < (((g.nodes.length - 1) * (g.nodes.length - 2) : ℕ) : ℚ) := by
    have hm : 0 < (g.nodes.length - 1) * (g.nodes.length - 2) :=
      Nat.mul_pos (by omega) (by omega)
    exact_mod_cast hm
  have hpos : 0 < normalizer g.nodes.length := by
    rw [hnorm_eq]
    exact div_pos hMpos (by norm_num)
  have hcc := centralityCount_le g v hv
  unfold calculateCentrality
  rw [if_pos hpos]
  constructor
  · exact div_nonneg (by positivity) (le_of_lt hpos)
  · rw [div_le_iff₀ hpos, hnorm_eq]
    have hcast : ((centralityCount g v : ℕ) : ℚ)
        ≤ (((g.nodes.length - 1) * (g.nodes.length - 2) : ℕ) : ℚ) := by
      exact_mod_cast hcc
    linarith

/-- Witness for the amended C1 at the cycle graph. -/
theorem c1_witness :
    3 ≤ gCycle.nodes.length ∧ idB ∈ gCycle.nodes.map Node.id ∧
    0 ≤ calculateCentrality gCycle idB ∧ calculateCentrality gCycle idB ≤ 2 :=
  ⟨by decide, by decide, c1_scores_bounded gCycle idB (by decide) (by decide)⟩

/-- C2 fails as stated: a successfully fetched document with zero usable
records passes validation and is returned unchanged — `loadMigrationData`
hands the empty interchange document to the caller as an ordinary success
value, with no `EmptyInputError` anywhere. -/
theorem c2_counterexample :
    loadMigrationData (FetchOutcome.ok emptyRawDoc) = emptyRawDoc := rfl

/-- C2 amended: `loadMigrationData` never surfaces an error. Every outcome
produces an ordinary interchange document: load or validation failures are
caught and yield the empty document, and any structurally valid fetched
document (including one with zero records) is returned as is. -/
theorem c2_no_error_surfaced :
    ∀ o : FetchOutcome, loadMigrationData o = emptyRawDoc ∨
      ∃ d, o = FetchOutcome.ok d ∧ loadMigrationData o = d := by
  intro o
  cases o with
  | fetchFailure => left; rfl
  | httpError => left; rfl
  | parseError => left; rfl
  | ok d =>
    rcases hg : d.graph with - | gr
    · left
      simp [loadMigrationData, hg]
    · rcases hn : gr.nodes with - | ns
      · left
        simp [loadMigrationData, hg, hn]
      · rcases hl : gr.links with - | ls
        · left
          simp [loadMigrationData, hg, hn, hl]
        · right
          exact ⟨d, rfl, by simp [loadMigrationData, hg, hn, hl]⟩

/-- C6: for every graph with fewer than 3 nodes, every node's score is 0;
and whenever the normalizer is not positive the accumulated counts are
returned undivided (no division is performed at all). -/
theorem c6_small_graph (g : Graph) (hn : g.nodes.length < 3) :
    (∀ nd ∈ g.nodes, calculateCentrality g nd.id = 0) ∧
    (normalizer g.nodes.length ≤ 0 →
      ∀ v, calculateCentrality g v = (centralityCount g v : ℚ)) := by
  constructor
  · intro nd hnd
    have hcount : centralityCount g nd.id = 0 := by
      unfold centralityCount
      refine List.sum_eq_zero ?_
      intro x hx
      obtain ⟨src, hsrc, rfl⟩ := List.mem_map.mp hx
      refine List.sum_eq_zero ?_
      intro y hy
      obtain ⟨tgt, htgt, rfl⟩ := List.mem_map.mp hy
      by_cases hd : src.id ≠ tgt.id
      · rw [if_pos hd]
        rcases two_of_three hn hnd hsrc htgt with h | h | h
        · exact pathInterior_count_endpoint g src.id tgt.id nd.id (Or.inl (by rw [h]))
        · exact pathInterior_count_endpoint g src.id tgt.id nd.id (Or.inr (by rw [h]))
        · exact absurd (by rw [h]) hd
      · rw [if_neg hd]
    unfold calculateCentrality
    rw [hcount]
    by_cases hp : 0 < normalizer g.nodes.length
    · rw [if_pos hp]
      simp
    · rw [if_neg hp]
      simp
  · intro hnp v
    unfold calculateCentrality
    rw [if_neg (not_lt.mpr hnp)]

/-- Witness for C6 at the two-node graph with one link. -/
theorem c6_witness :
    gSingleLink.nodes.length < 3 ∧
    (∀ nd ∈ gSingleLink.nodes, calculateCentrality gSingleLink nd.id = 0) ∧
    (normalizer gSingleLink.nodes.length ≤ 0 →
      ∀ v, calculateCentrality gSingleLink v = (centralityCount gSingleLink v : ℚ)) :=
  ⟨by decide, (c6_small_graph gSingleLink (by decide)).1,
    (c6_small_graph gSingleLink (by decide)).2⟩

theorem flowStats_top (ls : List Link) :
    (flowStats ls).top = (ls.mergeSort linkDesc).take 5 := rfl

theorem sorted_top (ls : List Link) :
    List.Sorted (fun a b : Link => b.value ≤ a.value) ((ls.mergeSort linkDesc).take 5) := by
  have htrans : ∀ a b c : Link,
      linkDesc a b = true → linkDesc b c = true → linkDesc a c = true := by
    intro a b c hab hbc
    simp only [linkDesc, decide_eq_true_eq] at hab hbc ⊢
    exact le_trans hbc hab
  have htotal : ∀ a b : Link, (linkDesc a b || linkDesc b a) = true := by
    intro a b
    simp only [linkDesc, Bool.or_eq_true, decide_eq_true_eq]
    exact le_total b.value a.value
  have hs := List.sorted_mergeSort htrans htotal ls
  have hs' : List.Sorted (fun a b : Link => b.value ≤ a.value) (ls.mergeSort linkDesc) := by
    refine hs.imp ?_
    intro a b hab
    simpa [linkDesc] using hab
  exact List.Pairwise.sublist (List.take_sublist 5 _) hs'

/-- C9: `calculateCommunityStats` yields `none` for a null graph or empty
community id; otherwise it returns a record whose `netFlow` is the summed
value of links into the community minus the summed value of links out of
it, and whose `top` lists hold at most five links in descending value
order. -/
theorem c9_community_stats (graph : Option Graph) (c : String) :
    (graph = none → calculateCommunityStats graph c = none) ∧
    (c = emptyId → calculateCommunityStats graph c = none) ∧
    (∀ g, graph = some g → c ≠ emptyId →
      ∃ st, calculateCommunityStats graph c = some st ∧
        st.netFlow = ((g.links.filter (fun l => l.target == c)).map Link.value).sum
          - ((g.links.filter (fun l => l.source == c)).map Link.value).sum ∧
        st.incoming.top.length ≤ 5 ∧ st.outgoing.top.length ≤ 5 ∧
        List.Sorted (fun a b : Link => b.value ≤ a.value) st.incoming.top ∧
        List.Sorted (fun a b : Link => b.value ≤ a.value) st.outgoing.top) := by
  refine ⟨?_, ?_, ?_⟩
  · rintro rfl
    rfl
  · rintro rfl
    cases graph with
    | none => rfl
    | some g => simp [calculateCommunityStats]
  · rintro g rfl hc
    refine ⟨{ incoming := flowStats (g.links.filter (fun l => l.target == c))
              outgoing := flowStats (g.links.filter (fun l => l.source == c))
              netFlow := ((g.links.filter (fun l => l.target == c)).map Link.value).sum
                - ((g.links.filter (fun l => l.source == c)).map Link.value).sum },
        ?_, rfl, ?_, ?_, ?_, ?_⟩
    · simp only [calculateCommunityStats, if_neg hc]
    · rw [flowStats_top, List.length_take]
      exact min_le_left _ _
    · rw [flowStats_top, List.length_take]
      exact min_le_left _ _
    · rw [flowStats_top]
      exact sorted_top _
    · rw [flowStats_top]
      exact sorted_top _

/-- Witness for C9 at the chain graph and community B. -/
theorem c9_witness :
    idB ≠ emptyId ∧
    (∃ st, calculateCommunityStats (some gChain) idB = some st ∧
      st.netFlow = ((gChain.links.filter (fun l => l.target == idB)).map Link.value).sum
        - ((gChain.links.filter (fun l => l.source == idB)).map Link.value).sum ∧
      st.incoming.top.length ≤ 5 ∧ st.outgoing.top.length ≤ 5 ∧
      List.Sorted (fun a b : Link => b.value ≤ a.value) st.incoming.top ∧
      List.Sorted (fun a b : Link => b.value ≤ a.value) st.outgoing.top) :=
  ⟨by decide, (c9_community_stats (some gChain) idB).2.2 gChain rfl (by decide)⟩

/-- C10: with a present graph and positive threshold, `filterByMinFlow`
keeps exactly the links of value at least the threshold and only nodes
incident to a kept link; with a non-positive threshold or missing graph the
input is returned unchanged. -/
theorem c10_filter_minflow (data : Option DataDoc) (minFlow : Int) :
    (∀ d g, data = some d → d.graph = some g → 0 < minFlow →
      ∃ g', filterByMinFlow data minFlow = some { d with graph := some g' } ∧
        (∀ l ∈ g'.links, minFlow ≤ l.value) ∧
        (∀ nd ∈ g'.nodes, ∃ l ∈ g'.links, l.source = nd.id ∨ l.target = nd.id)) ∧
    (minFlow ≤ 0 → filterByMinFlow data minFlow = data) ∧
    (∀ d, data = some d → d.graph = none → filterByMinFlow data minFlow = data) := by
  refine ⟨?_, ?_, ?_⟩
  · rintro d g rfl hg hpos
    refine ⟨{ nodes := g.nodes.filter (fun nd => nd.id ∈
                ((g.links.filter (fun l => minFlow ≤ l.value)).map Link.source ++
                 (g.links.filter (fun l => minFlow ≤ l.value)).map Link.target))
              links := g.links.filter (fun l => minFlow ≤ l.value) }, ?_, ?_, ?_⟩
    · simp only [filterByMinFlow, hg, if_neg (not_le.mpr hpos)]
    · intro l hl
      simpa using (List.mem_filter.mp hl).2
    · intro nd hnd
      have h2 := (List.mem_filter.mp hnd).2
      have h3 : nd.id ∈
          ((g.links.filter (fun l => minFlow ≤ l.value)).map Link.source ++
           (g.links.filter (fun l => minFlow ≤ l.value)).map Link.target) := by
        simpa using h2
      rcases List.mem_append.mp h3 with h | h
      · obtain ⟨l, hl, hid⟩ := List.mem_map.mp h
        exact ⟨l, hl, Or.inl hid⟩
      · obtain ⟨l, hl, hid⟩ := List.mem_map.mp h
        exact ⟨l, hl, Or.inr hid⟩
  · intro hle
    cases data with
    | none => rfl
    | some d =>
      cases hg : d.graph with
      | none => simp [filterByMinFlow, hg]
      | some g => simp [filterByMinFlow, hg, hle]
  · rintro d rfl hg
    simp [filterByMinFlow, hg]

/-- Witness for C10 at the flow graph with threshold 2. -/
theorem c10_witness :
    (0:Int) < 2 ∧ sampleDoc.graph = some gFlow ∧
    (∃ g', filterByMinFlow (some sampleDoc) 2 = some { sampleDoc with graph := some g' } ∧
      (∀ l ∈ g'.links, (2:Int) ≤ l.value) ∧
      (∀ nd ∈ g'.nodes, ∃ l ∈ g'.links, l.source = nd.id ∨ l.target = nd.id)) :=
  ⟨by decide, rfl,
    (c10_filter_minflow (some sampleDoc) 2).1 sampleDoc gFlow rfl rfl (by decide)⟩
